import Mathlib

/-!
Verification of the viz3 layout engine core against its specification.

The C++ sources are shallowly embedded: floats are modelled as rationals
(`ℚ`), `std::optional` as `Option`, throwing functions as `Except`/`Option`,
and reference-counted object graphs as pure inductive data.  Every
definition follows the corresponding C++ function; comments cite the
source file of the function being embedded.
-/

namespace Viz3

/-! ## Points (coords.hpp) -/

/-- `Point` from coords.hpp: three floats `x`, `y`, `z`, modelled over `ℚ`. -/
structure Point where
  x : ℚ
  y : ℚ
  z : ℚ
deriving DecidableEq, Repr

/-- The default `Point()` constructor: the origin. -/
def Point.zero : Point := ⟨0, 0, 0⟩

/-- `Point::operator+` (componentwise). -/
def Point.add (p q : Point) : Point := ⟨p.x + q.x, p.y + q.y, p.z + q.z⟩

/-- `Point::operator-` (componentwise). -/
def Point.sub (p q : Point) : Point := ⟨p.x - q.x, p.y - q.y, p.z - q.z⟩

/-- `Point::operator*` with a scalar factor. -/
def Point.smul (p : Point) (factor : ℚ) : Point :=
  ⟨p.x * factor, p.y * factor, p.z * factor⟩

/-! ## Bounds (bounds.hpp / bounds.cpp) -/

/-- `Bounds` from bounds.hpp: an ordered pair of corner points
(`m_coords.first` = `base()`, `m_coords.second` = `end()`). -/
structure Bounds where
  base : Point
  end_ : Point
deriving DecidableEq, Repr

/-- The default `Bounds()` constructor: both corners at the origin. -/
def Bounds.zero : Bounds := ⟨Point.zero, Point.zero⟩

/-- `Bounds::operator+=(const Bounds&)` from bounds.hpp: if this bounds is
`(0,0,0)-(0,0,0)` adopt the other bounds, otherwise take the componentwise
minimum of the bases and maximum of the ends (written with the same
ternary comparisons as the source). -/
def Bounds.addBounds (a b : Bounds) : Bounds :=
  if a.base = Point.zero ∧ a.end_ = Point.zero then b
  else
    let base_coord : Point :=
      ⟨if a.base.x > b.base.x then b.base.x else a.base.x,
       if a.base.y > b.base.y then b.base.y else a.base.y,
       if a.base.z > b.base.z then b.base.z else a.base.z⟩
    let end_coord : Point :=
      ⟨if a.end_.x > b.end_.x then a.end_.x else b.end_.x,
       if a.end_.y > b.end_.y then a.end_.y else b.end_.y,
       if a.end_.z > b.end_.z then a.end_.z else b.end_.z⟩
    ⟨base_coord, end_coord⟩

/-- `Bounds::operator-=(const Point&)`: shift both corners down. -/
def Bounds.subPoint (a : Bounds) (p : Point) : Bounds :=
  ⟨a.base.sub p, a.end_.sub p⟩

/-- `Bounds::operator+=(const Point&)`: shift both corners up. -/
def Bounds.addPoint (a : Bounds) (p : Point) : Bounds :=
  ⟨a.base.add p, a.end_.add p⟩

/-- `Bounds::operator*=(float)`: scale both corners. -/
def Bounds.mulFactor (a : Bounds) (factor : ℚ) : Bounds :=
  ⟨a.base.smul factor, a.end_.smul factor⟩

/-- `Bounds::lengths()` from bounds.cpp: absolute componentwise differences. -/
def Bounds.lengths (a : Bounds) : ℚ × ℚ × ℚ :=
  (|a.end_.x - a.base.x|, |a.end_.y - a.base.y|, |a.end_.z - a.base.z|)

/-- `Bounds::strip_pos()` from bounds.cpp: lengths-at-origin box. -/
def Bounds.strip_pos (a : Bounds) : Bounds :=
  ⟨Point.zero, ⟨a.lengths.1, a.lengths.2.1, a.lengths.2.2⟩⟩

/-! ## Rotation (rotation.hpp / transaction-embedded rotation code) -/

/-- `Rotation` from rotation.hpp: a 3×3 rotation matrix, modelled as nine
rational entries `aRC` (row `R`, column `C`). -/
structure Rotation where
  a00 : ℚ
  a01 : ℚ
  a02 : ℚ
  a10 : ℚ
  a11 : ℚ
  a12 : ℚ
  a20 : ℚ
  a21 : ℚ
  a22 : ℚ
deriving DecidableEq, Repr

/-- Matrix-vector product `m_rotation_matrix * pt`. -/
def Rotation.apply (r : Rotation) (p : Point) : Point :=
  ⟨r.a00 * p.x + r.a01 * p.y + r.a02 * p.z,
   r.a10 * p.x + r.a11 * p.y + r.a12 * p.z,
   r.a20 * p.x + r.a21 * p.y + r.a22 * p.z⟩

/-- `Rotation::rotate_coord(around_pt, pt)`: translate to the center, rotate,
translate back. -/
def Rotation.rotate_coord (r : Rotation) (around_pt pt : Point) : Point :=
  (r.apply (pt.sub around_pt)).add around_pt

/-- `Bounds::rotate_around` from bounds.cpp: rotate both corners and
recompute an axis-aligned box from the two rotated corners. -/
def Bounds.rotate_around (a : Bounds) (rotation_pt : Point) (rotation : Rotation) : Bounds :=
  let calc_base := rotation.rotate_coord rotation_pt a.base
  let calc_end := rotation.rotate_coord rotation_pt a.end_
  ⟨⟨min calc_base.x calc_end.x, min calc_base.y calc_end.y, min calc_base.z calc_end.z⟩,
   ⟨max calc_base.x calc_end.x, max calc_base.y calc_end.y, max calc_base.z calc_end.z⟩⟩

/-! ## RGBA (color.hpp) -/

/-- `color::RGBA` from color.hpp: four 8-bit channels (the claims only
compare colors for equality, so the channels are plain naturals). -/
structure RGBA where
  r : ℕ
  g : ℕ
  b : ℕ
  a : ℕ
deriving DecidableEq, Repr

/-- `color::default_color` stand-in (the precise default channels are
irrelevant to every claim; only equality of colors is ever consulted). -/
def RGBA.default : RGBA := ⟨255, 255, 255, 255⟩

/-! ## Geometry (geometry.hpp / the geometry translation unit) -/

/-- `Face` from geometry.hpp: a triple of vertex indices. -/
abbrev Face := ℕ × ℕ × ℕ

/-- `Geometry` from geometry.hpp: vertices, triangles, cached bounds,
position, color, hide/show distances and text. -/
structure Geometry where
  vertexes : List Point
  triangles : List Face
  bounds : Bounds
  pos : Point
  color : RGBA
  hide_distance : ℚ
  show_distance : ℚ
  text : String
deriving DecidableEq, Repr

/-- `Geometry::compute_bounds()`: the componentwise min/max box over the
vertices, or the default bounds when there are none.  (The source starts
the fold from ±infinity over a non-empty list; folding from the first
vertex yields the same box for finite coordinates.) -/
def Geometry.computeBoundsOf (vertexes : List Point) : Bounds :=
  match vertexes with
  | [] => Bounds.zero
  | v :: vs =>
    vs.foldl (fun (acc : Bounds) (pt : Point) =>
      ⟨⟨min acc.base.x pt.x, min acc.base.y pt.y, min acc.base.z pt.z⟩,
       ⟨max acc.end_.x pt.x, max acc.end_.y pt.y, max acc.end_.z pt.z⟩⟩) ⟨v, v⟩

/-- The `Geometry` constructor from geometry.hpp: stores the fields and
caches `m_bounds = compute_bounds()`. -/
def Geometry.make (vertexes : List Point) (triangles : List Face) (pos : Point)
    (color : RGBA) (hide_distance show_distance : ℚ) (text : String) : Geometry :=
  ⟨vertexes, triangles, Geometry.computeBoundsOf vertexes, pos, color,
   hide_distance, show_distance, text⟩

/-- `Geometry::should_draw()`: true iff there is at least one vertex. -/
def Geometry.should_draw (g : Geometry) : Bool := !g.vertexes.isEmpty

/-- `Geometry::positioned_bounds()`: the cached bounds shifted by `m_pos`. -/
def Geometry.positioned_bounds (g : Geometry) : Bounds :=
  ⟨g.bounds.base.add g.pos, g.bounds.end_.add g.pos⟩

/-- `Geometry::scale_by(factor)` from the geometry translation unit. -/
def Geometry.scale_by (g : Geometry) (factor : ℚ) : Geometry :=
  { g with
    pos := g.pos.smul factor
    vertexes := g.vertexes.map (fun v => v.smul factor)
    bounds := g.bounds.mulFactor factor
    show_distance := g.show_distance * factor
    hide_distance := g.hide_distance * factor }

/-- `Geometry::offset_pos(offset_pos)`. -/
def Geometry.offset_pos (g : Geometry) (offset : Point) : Geometry :=
  { g with pos := g.pos.add offset }

/-- `Geometry::rotate_around(rotation_pt, new_rotation)` from the geometry
translation unit: rotate the position, the cached bounds, and every vertex. -/
def Geometry.rotate_around (g : Geometry) (rotation_pt : Point) (new_rotation : Rotation) :
    Geometry :=
  { g with
    pos := new_rotation.rotate_coord rotation_pt g.pos
    bounds := g.bounds.rotate_around rotation_pt new_rotation
    vertexes := g.vertexes.map (fun v => new_rotation.rotate_coord rotation_pt v) }

/-- `Geometry::combine_with(other)` from the geometry translation unit:
reposition both vertex sets relative to the union base, concatenate the
vertices, shift the other geometry's triangle indices by this geometry's
vertex count, and rebuild through the bounds-computing constructor. -/
def Geometry.combine_with (g other : Geometry) : Geometry :=
  let new_pos := (g.positioned_bounds.addBounds other.positioned_bounds).base
  let offset_pos := g.pos.sub new_pos
  let other_offset_pos := other.pos.sub new_pos
  let vertexes_size := g.vertexes.length
  let new_vertexes :=
    g.vertexes.map (fun v => v.add offset_pos) ++
      other.vertexes.map (fun v => v.add other_offset_pos)
  let new_triangles :=
    g.triangles ++
      other.triangles.map (fun t =>
        (t.1 + vertexes_size, t.2.1 + vertexes_size, t.2.2 + vertexes_size))
  Geometry.make new_vertexes new_triangles new_pos g.color g.hide_distance
    g.show_distance g.text

/-! ## Path (path.hpp / path.cpp) -/

/-- A `Path` from path.hpp is an ordered sequence of name parts. -/
abbrev Path := List String

/-- The character class of `valid_path_part_pattern = "^[a-zA-Z0-9:_-]+$"`. -/
def is_valid_path_char (c : Char) : Bool :=
  c.isAlpha || c.isDigit || c = ':' || c = '_' || c = '-'

/-- `is_valid_path_part` from path.cpp: non-empty and matching the part
regex on every character. -/
def is_valid_path_part (part : String) : Bool :=
  !part.data.isEmpty && part.data.all is_valid_path_char

/-- The `'.'`-splitting loop of the dot-string constructor: cut the
character list at every dot (empty pieces mark consecutive dots). -/
def splitOnDot : List Char → List (List Char)
  | [] => [[]]
  | c :: rest =>
    if c = '.' then [] :: splitOnDot rest
    else
      match splitOnDot rest with
      | part :: parts => (c :: part) :: parts
      | [] => [[c]]

/-- The `Path(std::vector<std::string>)` constructor from path.hpp lines
20-23: stores the parts without any validation. -/
def Path.fromParts (parts : List String) : Path := parts

/-- The `Path(const std::string&)` dot-string constructor from path.cpp:
empty or `"."` yields the empty path; otherwise an optional leading dot is
skipped, the rest is split on `'.'`, an empty piece raises the `'..'`
error and a piece failing the part regex raises the invalid-part error. -/
def Path.fromDotString (dot_string : String) : Except String Path :=
  if dot_string = "" ∨ dot_string = "." then .ok []
  else
    let rest := match dot_string.data with
      | c :: cs => if c = '.' then cs else dot_string.data
      | [] => dot_string.data
    let parts := (splitOnDot rest).map (fun chars => String.mk chars)
    match parts.find? (fun part => !is_valid_path_part part) with
    | some part =>
      if part = "" then
        .error ("Path given has '..' within it: " ++ dot_string)
      else
        .error ("Part given in path is not a valid path part: '" ++ part ++ "'")
    | none => .ok parts

/-- The part-wise half of `Path::comparison` from path.cpp: walk two
equal-length part lists and return the sign of the first difference. -/
def Path.lexComparison : List String → List String → Int
  | [], _ => 0
  | _, [] => 0
  | x :: xs, y :: ys =>
    if x > y then 1
    else if x < y then -1
    else Path.lexComparison xs ys

/-- `Path::comparison` from path.cpp: compare lengths first, then parts. -/
def Path.comparison (a b : Path) : Int :=
  if a.length > b.length then 1
  else if a.length < b.length then -1
  else Path.lexComparison a b

/-- `Path::operator<`. -/
def Path.lt (a b : Path) : Bool := Path.comparison a b < 0

/-- `Path::is_descendant_of(other, or_are_same)` from path.cpp: `other`
must be no longer (strictly shorter unless `or_are_same`) and a prefix. -/
def Path.is_descendant_of (a other : Path) (or_are_same : Bool) : Bool :=
  if other.length > a.length then false
  else if !or_are_same && other.length = a.length then false
  else other.isPrefixOf a

/-- `Path::is_child_of` from path.cpp. -/
def Path.is_child_of (a other : Path) : Bool :=
  a.length = other.length + 1 && a.is_descendant_of other false

/-! ## Render differences (render.hpp / render.cpp) -/

/-- `RenderDifferences` from render.hpp. -/
inductive RenderDifferences where
  | FirstMissing
  | SecondMissing
  | Pos
  | Bounds
  | Color
  | Text
deriving DecidableEq, Repr

/-- The linear merge of `RenderTree::differences_from` from render.cpp,
over the sorted entry lists of the two path→geometry maps (`first` is
`this`, `last` is the argument tree). -/
def diffEntries : List (Path × Geometry) → List (Path × Geometry) →
    List (Path × RenderDifferences)
  | (first_path, _) :: first_rest, [] =>
    (first_path, .SecondMissing) :: diffEntries first_rest []
  | [], (last_path, _) :: last_rest =>
    (last_path, .FirstMissing) :: diffEntries [] last_rest
  | [], [] => []
  | (first_path, first_geometry) :: first_rest,
      (last_path, last_geometry) :: last_rest =>
    if Path.lt first_path last_path then
      (first_path, .SecondMissing) ::
        diffEntries first_rest ((last_path, last_geometry) :: last_rest)
    else if Path.lt last_path first_path then
      (last_path, .FirstMissing) ::
        diffEntries ((first_path, first_geometry) :: first_rest) last_rest
    else
      (if first_geometry.pos ≠ last_geometry.pos then [(first_path, RenderDifferences.Pos)] else []) ++
      (if first_geometry.bounds ≠ last_geometry.bounds then [(first_path, RenderDifferences.Bounds)] else []) ++
      (if first_geometry.color ≠ last_geometry.color then [(first_path, RenderDifferences.Color)] else []) ++
      (if first_geometry.text ≠ last_geometry.text then [(first_path, RenderDifferences.Text)] else []) ++
      diffEntries first_rest last_rest

/-- The paths a diff result reports with a given tag. -/
def pathsWithTag (diffs : List (Path × RenderDifferences)) (tag : RenderDifferences) :
    List Path :=
  diffs.filterMap (fun pd => if pd.2 = tag then some pd.1 else none)

/-- `Bounds::center()` from bounds.hpp: base plus half the lengths. -/
def Bounds.center (a : Bounds) : Point :=
  ⟨a.base.x + a.lengths.1 / 2, a.base.y + a.lengths.2.1 / 2, a.base.z + a.lengths.2.2 / 2⟩

/-- `Bounds::bottom_left()` from bounds.hpp: the base corner. -/
def Bounds.bottom_left (a : Bounds) : Point := a.base

/-! ## Render tree (render.hpp / render.cpp)

`m_rendered` is a `std::map<Path, Geometry>`; it is modelled as its sorted
entry list, with `mapInsert` implementing `insert_or_assign` (equivalent
keys under `Path::comparison` are equal part lists). -/

/-- Membership of a key in the modelled `std::map`. -/
def mapContains (m : List (Path × Geometry)) (p : Path) : Bool :=
  m.any (fun e => e.1 = p)

/-- Lookup in the modelled `std::map` (`m_rendered.at` / `.find`). -/
def mapGet (m : List (Path × Geometry)) (p : Path) : Option Geometry :=
  (m.find? (fun e => e.1 = p)).map (·.2)

/-- `insert_or_assign` on the modelled `std::map`: replace the entry with
an equivalent key, or insert at the sorted position. -/
def mapInsert : List (Path × Geometry) → Path → Geometry → List (Path × Geometry)
  | [], p, g => [(p, g)]
  | (q, h) :: rest, p, g =>
    if Path.lt p q then (p, g) :: (q, h) :: rest
    else if Path.lt q p then (q, h) :: mapInsert rest p g
    else (p, g) :: rest

/-- `RenderTree` from render.hpp: the path-keyed geometry map plus the
insertion-order list. -/
structure RenderTree where
  insertion_order : List Path
  rendered : List (Path × Geometry)
deriving DecidableEq, Repr

/-- The default-constructed, empty render tree. -/
def RenderTree.empty : RenderTree := ⟨[], []⟩

/-- `RenderTree::needs_updating` from render.cpp: the path is absent. -/
def RenderTree.needs_updating (rt : RenderTree) (path : Path) : Bool :=
  !mapContains rt.rendered path

/-- `RenderTree::update` from render.cpp: append to the insertion order
when absent, then `insert_or_assign` the geometry. -/
def RenderTree.update (rt : RenderTree) (path : Path) (geometry : Geometry) : RenderTree :=
  { insertion_order :=
      if mapContains rt.rendered path then rt.insertion_order
      else rt.insertion_order ++ [path]
    rendered := mapInsert rt.rendered path geometry }

/-- `RenderTree::get` from render.cpp. -/
def RenderTree.get (rt : RenderTree) (path : Path) : Option Geometry :=
  mapGet rt.rendered path

/-- `RenderTree::positioned_bounds_of` from render.cpp: union the
positioned bounds of every inclusive descendant, starting from an empty
optional so a `(0,0,0)` lower corner is not forced in. -/
def RenderTree.positioned_bounds_of (rt : RenderTree) (path : Path) : Bounds :=
  let maybe_bounds := rt.rendered.foldl
    (fun (acc : Option Bounds) e =>
      if e.1.is_descendant_of path true then
        match acc with
        | some b => some (b.addBounds e.2.positioned_bounds)
        | none => some e.2.positioned_bounds
      else acc) none
  maybe_bounds.getD Bounds.zero

/-- `RenderTree::children_of` from render.cpp: walk the insertion order
and pair each direct child path with its mapped geometry (`m_rendered.at`;
present whenever the insertion-order/map invariant holds). -/
def RenderTree.children_of (rt : RenderTree) (path : Path) :
    List (Path × Geometry) :=
  rt.insertion_order.filterMap (fun q =>
    if q.is_child_of path then (mapGet rt.rendered q).map (fun g => (q, g)) else none)

/-- `RenderTree::descendants_of` from render.cpp, as `children_of`. -/
def RenderTree.descendants_of (rt : RenderTree) (path : Path) (including : Bool) :
    List (Path × Geometry) :=
  rt.insertion_order.filterMap (fun q =>
    if q.is_descendant_of path including then (mapGet rt.rendered q).map (fun g => (q, g))
    else none)

/-- `RenderTree::move_parent_and_descendants_by_impl` from render.cpp:
offset the geometry at `path` (unless `excluding_parent`), then every
strict descendant's geometry outside the excluded subtree. -/
def RenderTree.move_parent_and_descendants_by_impl (rt : RenderTree) (path : Path)
    (by_pos : Point) (excluding_subdescendants_of : Option Path)
    (excluding_parent : Bool) : RenderTree :=
  { rt with
    rendered := rt.rendered.map (fun e =>
      let g := if !excluding_parent && e.1 = path then e.2.offset_pos by_pos else e.2
      if e.1.is_descendant_of path false &&
          (match excluding_subdescendants_of with
           | none => true
           | some ex => !e.1.is_descendant_of ex true) then
        (e.1, g.offset_pos by_pos)
      else (e.1, g)) }

/-- `RenderTree::move_parent_and_descendants_by` (no exclusion overload). -/
def RenderTree.move_parent_and_descendants_by (rt : RenderTree) (path : Path)
    (by_pos : Point) : RenderTree :=
  rt.move_parent_and_descendants_by_impl path by_pos none false

/-- `RenderTree::scale_parent_and_descendants_by` from render.cpp: scale
and re-update every inclusive descendant. -/
def RenderTree.scale_parent_and_descendants_by (rt : RenderTree) (path : Path)
    (factor : ℚ) : RenderTree :=
  (rt.descendants_of path true).foldl
    (fun acc e => acc.update e.1 (e.2.scale_by factor)) rt

/-- The tail of `RenderTree::rotate_children_of`: rotate the geometry at
`path` (when present) and write it back. -/
def RenderTree.rotate_at (path : Path) (rotation_pt : Point) (rotation : Rotation)
    (rt : RenderTree) : RenderTree :=
  match rt.get path with
  | some geometry => rt.update path (geometry.rotate_around rotation_pt rotation)
  | none => rt

/-- `RenderTree::rotate_children_of` from render.cpp: recurse into the
children listed at entry, then rotate this path's geometry if present.
The C++ recursion is over strictly longer paths of a finite tree; `fuel`
bounds that depth (any fuel at least the longest path length reproduces
the source behavior). -/
def RenderTree.rotate_children_of (fuel : Nat) (rt : RenderTree) (path : Path)
    (rotation_pt : Point) (rotation : Rotation) : RenderTree :=
  match fuel with
  | 0 => rt
  | fuel + 1 =>
    RenderTree.rotate_at path rotation_pt rotation
      ((rt.children_of path).foldl
        (fun acc e => RenderTree.rotate_children_of fuel acc e.1 rotation_pt rotation) rt)

/-- `RenderTree::rotate_parent_and_descendants_in_place` from render.cpp:
rotate around the center of the positioned bounds, then shift back so the
bottom-left corner is unchanged. -/
def RenderTree.rotate_parent_and_descendants_in_place (fuel : Nat) (rt : RenderTree)
    (path : Path) (rotation : Rotation) : RenderTree :=
  let pos_bounds := rt.positioned_bounds_of path
  let old_left_corner_pt := pos_bounds.bottom_left
  let rotation_pt := pos_bounds.center
  let rt' := RenderTree.rotate_children_of fuel rt path rotation_pt rotation
  let new_left_corner_pt := (rt'.positioned_bounds_of path).bottom_left
  rt'.move_parent_and_descendants_by path (old_left_corner_pt.sub new_left_corner_pt)

/-- `RenderTree::invalidate_parent_and_child_pos` from render.cpp: present
behavior wipes the entire map and insertion order (the path argument is
unused by the active code). -/
def RenderTree.invalidate_parent_and_child_pos (rt : RenderTree) (path : Path) :
    RenderTree :=
  let _ := path
  let _ := rt
  ⟨[], []⟩

/-- `RenderTree::differences_from(other)`: the linear merge over the two
sorted maps (`this` first, the argument second). -/
def RenderTree.differences_from (rt other_render_tree : RenderTree) :
    List (Path × RenderDifferences) :=
  diffEntries rt.rendered other_render_tree.rendered

/-- The render-tree mutations quantified over by the invariant claim. -/
inductive RenderTreeOp where
  | update (path : Path) (geometry : Geometry)
  | move (path : Path) (by_pos : Point) (excluding : Option Path) (excluding_parent : Bool)
  | scale (path : Path) (factor : ℚ)
  | rotate (path : Path) (rotation : Rotation) (fuel : Nat)
  | invalidate (path : Path)

/-- Apply one mutation to the render tree. -/
def RenderTree.applyOp (rt : RenderTree) : RenderTreeOp → RenderTree
  | .update path geometry => rt.update path geometry
  | .move path by_pos excluding excluding_parent =>
    rt.move_parent_and_descendants_by_impl path by_pos excluding excluding_parent
  | .scale path factor => rt.scale_parent_and_descendants_by path factor
  | .rotate path rotation fuel =>
    RenderTree.rotate_parent_and_descendants_in_place fuel rt path rotation
  | .invalidate path => rt.invalidate_parent_and_child_pos path

/-- Apply a sequence of mutations in order. -/
def RenderTree.applyOps (rt : RenderTree) (ops : List RenderTreeOp) : RenderTree :=
  ops.foldl RenderTree.applyOp rt

/-- The insertion-order/map invariant of the render tree: the
insertion-order list holds no duplicates and lists exactly the keys of
the path→geometry map. -/
def RenderTreeWF (rt : RenderTree) : Prop :=
  rt.insertion_order.Nodup ∧
  ∀ p : Path, p ∈ rt.insertion_order ↔ mapContains rt.rendered p = true

/-! ## Node tree (node.hpp / node.cpp)

Only the structure relevant to child/template ordering is embedded: the
element is reduced to its kind and name (`AbstractElement::get_name`), and
since nodes are pure data here, `clone_into_parent` followed by
`copy_children_from_node` amounts to a deep copy with the root renamed. -/

/-- The element kinds a node may hold (only the name matters for child
ordering; the kind records what the element is). -/
inductive ElementKind where
  | box
  | nop
  | other
deriving DecidableEq, Repr

/-- A `Node` from node.hpp: element (kind and name), ordered children,
ordered templates, and the per-template insertion indexes. -/
inductive NodeT where
  | mk (kind : ElementKind) (name : String) (children : List NodeT)
      (templates : List NodeT) (template_insertion_indexes : List Nat)
deriving Repr

/-- `Node::get_name()`. -/
def NodeT.name : NodeT → String
  | .mk _ name _ _ _ => name

/-- The node's element kind. -/
def NodeT.kind : NodeT → ElementKind
  | .mk kind _ _ _ _ => kind

/-- `Node::children()`. -/
def NodeT.children : NodeT → List NodeT
  | .mk _ _ children _ _ => children

/-- `Node::templates()`. -/
def NodeT.templates : NodeT → List NodeT
  | .mk _ _ _ templates _ => templates

/-- The `m_template_insertion_indexes` vector. -/
def NodeT.template_insertion_indexes : NodeT → List Nat
  | .mk _ _ _ _ idxs => idxs

/-- `Node::children_names()`. -/
def NodeT.children_names (n : NodeT) : List String :=
  n.children.map NodeT.name

/-- A fresh node holding an element (`Node::construct` with no children). -/
def NodeT.leaf (kind : ElementKind) (name : String) : NodeT :=
  .mk kind name [] [] []

/-- `Node::clone_into_parent(new_name, ...)` combined with
`copy_children_from_node`: on pure data this is the subtree with the root
renamed. -/
def NodeT.clone_into_parent (n : NodeT) (new_name : String) : NodeT :=
  match n with
  | .mk kind _ children templates idxs => .mk kind new_name children templates idxs

/-- The private `Node::add_child(node, maybe_insertion_index)` from
node.cpp: with an index, bump every template insertion index at or after
it and splice the node in; without one, append. -/
def NodeT.add_child (parent node : NodeT) (maybe_insertion_index : Option Nat) : NodeT :=
  match parent with
  | .mk kind name children templates idxs =>
    match maybe_insertion_index with
    | some insertion_index =>
      .mk kind name (children.insertIdx insertion_index node) templates
        (idxs.map (fun i => if i ≥ insertion_index then i + 1 else i))
    | none => .mk kind name (children ++ [node]) templates idxs

/-- `Node::construct_child` from node.cpp: construct and append. -/
def NodeT.construct_child (parent : NodeT) (kind : ElementKind) (name : String) : NodeT :=
  parent.add_child (NodeT.leaf kind name) none

/-- `Node::add_template` from node.cpp: record the current children count
as the template's insertion index and push the template. -/
def NodeT.add_template (parent template_node : NodeT) : NodeT :=
  match parent with
  | .mk kind name children templates idxs =>
    .mk kind name children (templates ++ [template_node])
      (idxs ++ [children.length])

/-- `Node::construct_template` from node.cpp: construct and add. -/
def NodeT.construct_template (parent : NodeT) (kind : ElementKind) (name : String) :
    NodeT :=
  parent.add_template (NodeT.leaf kind name)

/-- `Node::try_get_template` from node.cpp: first template with the name. -/
def NodeT.try_get_template (parent : NodeT) (with_name : String) : Option NodeT :=
  parent.templates.find? (fun t => t.name = with_name)

/-- `Node::compute_child_insertion_index` from node.cpp: the recorded
insertion index of the first template with the name. -/
def NodeT.compute_child_insertion_index (parent : NodeT) (with_name : String) :
    Option Nat :=
  let rec go : List NodeT → List Nat → Option Nat
    | t :: ts, i :: is_ => if t.name = with_name then some i else go ts is_
    | _, _ => none
  go parent.templates parent.template_insertion_indexes

/-- `Node::try_make_template(template_name, new_name)` from node.cpp:
clone the template under the new name and insert it at the recorded
insertion index (a missing template throws). -/
def NodeT.try_make_template (parent : NodeT) (template_name new_name : String) :
    Except String NodeT :=
  match parent.try_get_template template_name,
      parent.compute_child_insertion_index template_name with
  | some template_node, some insertion_index =>
    .ok (parent.add_child (template_node.clone_into_parent new_name)
      (some insertion_index))
  | _, _ => .error ("Could not find template with name " ++ template_name)

/-! ## Event server (event.hpp / the event translation unit) -/

/-- `EventType` from event.hpp. -/
inductive EventType where
  | Add
  | Remove
  | Move
  | Resize
  | Recolor
  | Retext
deriving DecidableEq, Repr

/-- `Event` from event.hpp: path, geometry snapshot and kind. -/
structure Event where
  path : Path
  geometry : Geometry
  type : EventType
deriving DecidableEq, Repr

/-- `EventFilter` from event.hpp. -/
inductive EventFilter where
  | ReceiveAll
  | SkipNonDrawable
deriving DecidableEq, Repr

/-- `ListenerPosition` from event.hpp: filter plus next-event cursor. -/
structure ListenerPosition where
  filter : EventFilter
  index : Nat
deriving DecidableEq, Repr

/-- The `EventServer` state: the append-only event log, the per-token
listener table (`m_listener_pos`, keyed by token), and the token counter. -/
structure EventServer where
  events : List Event
  listener_pos : List (Nat × ListenerPosition)
  token_counter : Nat
deriving DecidableEq, Repr

/-- A freshly constructed event server. -/
def EventServer.init : EventServer := ⟨[], [], 0⟩

/-- `EventServer::index_of_next_event` from the event translation unit:
advance the cursor past events the filter skips. -/
def EventServer.index_of_next_event (events : List Event) (filter : EventFilter)
    (index : Nat) : Nat :=
  if h : index < events.length then
    if filter = EventFilter.SkipNonDrawable && !(events[index].geometry.should_draw) then
      EventServer.index_of_next_event events filter (index + 1)
    else index
  else index
termination_by events.length - index

/-- `EventServer::request_listener`: allocate the next token with cursor 0. -/
def EventServer.request_listener (s : EventServer) (filter : EventFilter) :
    EventServer × Nat :=
  ({ s with
      token_counter := s.token_counter + 1
      listener_pos := (s.token_counter, ⟨filter, 0⟩) :: s.listener_pos },
   s.token_counter)

/-- `EventServer::add_event`: append to the event log. -/
def EventServer.add_event (s : EventServer) (event : Event) : EventServer :=
  { s with events := s.events ++ [event] }

/-- `EventServer::try_pop_event` from the event translation unit:
if an unfiltered event lies at or after the cursor, return it (with its
append-order index) and advance the cursor past it. -/
def EventServer.try_pop_event (s : EventServer) (token : Nat) :
    EventServer × Option (Nat × Event) :=
  match s.listener_pos.lookup token with
  | none => (s, none)
  | some pos =>
    let event_index := EventServer.index_of_next_event s.events pos.filter pos.index
    if h : event_index < s.events.length then
      ({ s with
          listener_pos := s.listener_pos.map (fun tp =>
            if tp.1 = token then (tp.1, ⟨pos.filter, event_index + 1⟩) else tp) },
       some (event_index, s.events[event_index]))
    else (s, none)

/-- The interleaved producer/listener actions of the monotonicity claim. -/
inductive EventAction where
  | register (filter : EventFilter)
  | append (event : Event)
  | pop (token : Nat)

/-- Run one action; successful pops log `(token, append-order index)`. -/
def EventServer.step (s : EventServer) (log : List (Nat × Nat)) :
    EventAction → EventServer × List (Nat × Nat)
  | .register filter => ((s.request_listener filter).1, log)
  | .append event => (s.add_event event, log)
  | .pop token =>
    match s.try_pop_event token with
    | (s', some (event_index, _)) => (s', log ++ [(token, event_index)])
    | (s', none) => (s', log)

/-- Run a whole interleaving from a fresh server, collecting the log. -/
def EventServer.run (actions : List EventAction) : EventServer × List (Nat × Nat) :=
  actions.foldl (fun acc action => EventServer.step acc.1 acc.2 action)
    (EventServer.init, [])

/-- The append-order indices the listener with `token` received, in order. -/
def popIndices (token : Nat) (log : List (Nat × Nat)) : List Nat :=
  log.filterMap (fun ti => if ti.1 = token then some ti.2 else none)

/-- The run invariant of the event server: logged tokens and listener
tokens stay below the token counter, the listener table has unique
tokens, every listener's received indices are strictly increasing, and a
listener's cursor lies strictly above everything it has received. -/
def EventLogWF (s : EventServer) (log : List (Nat × Nat)) : Prop :=
  (∀ ti ∈ log, ti.1 < s.token_counter) ∧
  (∀ tp ∈ s.listener_pos, tp.1 < s.token_counter) ∧
  (s.listener_pos.map Prod.fst).Nodup ∧
  (∀ token, List.Chain' (· < ·) (popIndices token log)) ∧
  (∀ token pos, s.listener_pos.lookup token = some pos →
    ∀ i ∈ popIndices token log, i < pos.index)

/-! ## Value system (value.hpp / the value translation unit) -/

/-- One entry of the `AncestorValues` variant map: either a `FloatValue`
(name, abbreviation, current value) or a value of one of the other eight
types, which `get_float` skips by its `holds_alternative` check. -/
inductive ValueEntry where
  | floatV (name abbreviation : String) (value : ℚ)
  | otherV (name : String)
deriving DecidableEq, Repr

/-- `AncestorValues`, modelled as the variant map's entry list in key
order (the map is keyed by the value name). -/
abbrev AncestorValues := List ValueEntry

/-- `AncestorValues::get_float` from value.hpp: scan the map in order,
skip entries that do not hold a `FloatValue`, and return the first whose
name or abbreviation matches; a missing name throws (`none` here). -/
def AncestorValues.get_float (known_values : AncestorValues) (name : String) : Option ℚ :=
  match known_values with
  | [] => none
  | .floatV value_name abbreviation value :: rest =>
    if value_name = name ∨ abbreviation = name then some value
    else AncestorValues.get_float rest name
  | .otherV _ :: rest => AncestorValues.get_float rest name

/-- `RelativeFloatTypeValue<float>` (= `RelativeFloatValue`) from
value.hpp: a float value plus multiplier, percentage flag and optional
relative name (`is_relative()` iff the relative name is set). -/
structure RelativeFloatValue where
  name : String
  abbreviation : String
  value : ℚ
  defaulted : Bool
  multiplier : ℚ
  is_percentage : Bool
  relative_name : Option String
deriving DecidableEq, Repr

/-- `RelativeFloatTypeValue::is_relative()`. -/
def RelativeFloatValue.is_relative (v : RelativeFloatValue) : Bool :=
  v.relative_name.isSome

/-- `RelativeFloatTypeValue::compute_relative_value` from the value
translation unit: non-relative values use `multiplier` directly when a
percentage and `value * multiplier` otherwise; relative values use the
scope's float for the relative name times the multiplier; finally a
percentage multiplies by the scope's float for the value's own name over
100.  Failing scope lookups (which throw in the source) yield `none`. -/
def RelativeFloatValue.compute_relative_value (v : RelativeFloatValue)
    (known_values : AncestorValues) : Option ℚ :=
  let maybe_val : Option ℚ :=
    match v.relative_name with
    | none => if v.is_percentage then some v.multiplier else some (v.value * v.multiplier)
    | some rel_name => (known_values.get_float rel_name).map (· * v.multiplier)
  match maybe_val with
  | none => none
  | some val =>
    if v.is_percentage then
      (known_values.get_float v.name).map (fun ancestor_value => ancestor_value * (val / 100))
    else some val

/-! ## Topological sort with aliases (the value translation unit)

`topological_sort_with_aliases` builds a directed graph with an edge from
each resolved dependency to its dependent name and runs
`boost::topological_sort`, which returns an order listing every vertex
after its in-neighbors and throws `not_a_dag` exactly when the graph has a
cycle; the order is then filtered to the dependency-map keys.  Since each
name has at most one dependency, the graph is the functional graph of
`resolvedDep`; the sort is modelled from boost's documented contract by
ordering the keys by their dependency-chain depth, and the cycle check by
chain non-termination. -/

/-- `resolve_alias` from the value translation unit. -/
def resolve_alias (name : String) (aliases : List (String × String)) : String :=
  match aliases.lookup name with
  | some resolved => resolved
  | none => name

/-- The in-neighbor of a name in the dependency graph: its alias-resolved
dependency, when the dependency map gives it one. -/
def resolvedDep (dependencies : List (String × Option String))
    (aliases : List (String × String)) (name : String) : Option String :=
  match dependencies.lookup name with
  | some (some dep) => some (resolve_alias dep aliases)
  | _ => none

/-- Iterate `resolvedDep` `k` times from a name. -/
def depIter (dependencies : List (String × Option String))
    (aliases : List (String × String)) : Nat → String → Option String
  | 0, name => some name
  | k + 1, name => (depIter dependencies aliases k name).bind (resolvedDep dependencies aliases)

/-- The alias-resolved dependency relation has a cycle: some name returns
to itself after one or more dependency steps. -/
def DepCyclic (dependencies : List (String × Option String))
    (aliases : List (String × String)) : Prop :=
  ∃ name k, depIter dependencies aliases (k + 1) name = some name

/-- The length of the dependency chain from a name, within `fuel` steps
(`none` when the chain does not end within the fuel, i.e. on a cycle). -/
def chainDepth (dependencies : List (String × Option String))
    (aliases : List (String × String)) : Nat → String → Option Nat
  | 0, _ => none
  | fuel + 1, name =>
    match resolvedDep dependencies aliases name with
    | none => some 0
    | some dep => (chainDepth dependencies aliases fuel dep).map (· + 1)

/-- The chain depth of a name at the fuel used by the sort. -/
def depDepth (dependencies : List (String × Option String))
    (aliases : List (String × String)) (name : String) : Nat :=
  (chainDepth dependencies aliases (dependencies.length + 1) name).getD 0

/-- The cycle error message built by the `not_a_dag` handler. -/
def cycleErrorMessage (dependencies : List (String × Option String)) : String :=
  "Attributes given form a cycle: " ++
    String.join (dependencies.map (fun nd =>
      "\x7b " ++ nd.1 ++
        (match nd.2 with
         | some dep => " -> " ++ dep
         | none => "") ++ " \x7d "))

/-- `topological_sort_with_aliases` from the value translation unit,
via the boost contract model above: fail with the cycle message when some
key's dependency chain does not terminate, otherwise return the keys in
dependency-chain-depth order (every name after its resolved dependency). -/
def topological_sort_with_aliases (dependencies : List (String × Option String))
    (aliases : List (String × String)) : Except String (List String) :=
  if (dependencies.map Prod.fst).all
      (fun k => (chainDepth dependencies aliases (dependencies.length + 1) k).isSome) then
    .ok (List.insertionSort
      (fun a b => depDepth dependencies aliases a ≤ depDepth dependencies aliases b)
      (dependencies.map Prod.fst))
  else .error (cycleErrorMessage dependencies)

/-! ## Scale feature (the feature translation unit) -/

/-- `Axis` from value_types.hpp. -/
inductive Axis where
  | X
  | Y
  | Z
deriving DecidableEq, Repr

/-- The `ScaleFeatureSet` state consulted by `compute_scale_factor`: the
`SizeFeature` width/height/depth values with their defaulted flags, and
the `AxisFeature` axis value with its defaulted flag. -/
structure ScaleFeatureSet where
  width : ℚ
  height : ℚ
  depth : ℚ
  width_defaulted : Bool
  height_defaulted : Bool
  depth_defaulted : Bool
  axis : Axis
  axis_defaulted : Bool
deriving DecidableEq, Repr

/-- Float division as the factor computation sees it: a zero divisor does
not produce a finite factor (`none` models the non-finite float). -/
def floatDiv (a b : ℚ) : Option ℚ :=
  if b = 0 then none else some (a / b)

/-- Minimum of two candidate factors, `none` being infinity. -/
def factorMin : Option ℚ → Option ℚ → Option ℚ
  | none, b => b
  | a, none => a
  | some a, some b => some (min a b)

/-- `ScaleFeatureSet::compute_scale_factor(width, height, depth)` from the
feature translation unit, transcribed including the guard of
`width_factor`, which tests `std::isnormal(depth)` where the other two
factors test their own axis argument.  `none` models an infinite factor;
`std::isnormal` on a finite non-zero rational is the non-zero test. -/
def ScaleFeatureSet.compute_scale_factor (fs : ScaleFeatureSet)
    (width height depth : ℚ) : Option ℚ :=
  let unconstrained_width := fs.width_defaulted
  let unconstrained_height := fs.height_defaulted
  let unconstrained_depth := fs.depth_defaulted
  if unconstrained_width && unconstrained_height && unconstrained_depth then some 1
  else
    let target_width := fs.width
    let target_height := fs.height
    let target_depth := fs.depth
    let width_factor : Option ℚ :=
      if unconstrained_width || depth = 0 then none else floatDiv target_width width
    let height_factor : Option ℚ :=
      if unconstrained_height || height = 0 then none else floatDiv target_height height
    let depth_factor : Option ℚ :=
      if unconstrained_depth || depth = 0 then none else floatDiv target_depth depth
    if fs.axis_defaulted then
      let calc_factor := factorMin (factorMin width_factor height_factor) depth_factor
      match calc_factor with
      | none => some 1
      | some factor => some factor
    else
      match fs.axis with
      | .X => width_factor
      | .Y => height_factor
      | .Z => depth_factor

/-- `compute_scale_factor` as the specification states it: the factor for
each axis guards on that axis's own current length. -/
def ScaleFeatureSet.compute_scale_factor_spec (fs : ScaleFeatureSet)
    (width height depth : ℚ) : Option ℚ :=
  if fs.width_defaulted && fs.height_defaulted && fs.depth_defaulted then some 1
  else
    let width_factor : Option ℚ :=
      if fs.width_defaulted || width = 0 then none else floatDiv fs.width width
    let height_factor : Option ℚ :=
      if fs.height_defaulted || height = 0 then none else floatDiv fs.height height
    let depth_factor : Option ℚ :=
      if fs.depth_defaulted || depth = 0 then none else floatDiv fs.depth depth
    if fs.axis_defaulted then
      match factorMin (factorMin width_factor height_factor) depth_factor with
      | none => some 1
      | some factor => some factor
    else
      match fs.axis with
      | .X => width_factor
      | .Y => height_factor
      | .Z => depth_factor

/-! ## Theorems -/

theorem ite_gt_eq_min (a b : ℚ) : (if a > b then b else a) = min a b := by
  rw [min_def]
  split_ifs with h1 h2 <;> first | rfl | linarith

theorem ite_gt_eq_max (a b : ℚ) : (if a > b then a else b) = max a b := by
  rw [max_def]
  split_ifs with h1 h2 <;> first | rfl | linarith

theorem bounds_ne_zero_iff (a : Bounds) :
    a ≠ Bounds.zero ↔ ¬(a.base = Point.zero ∧ a.end_ = Point.zero) := by
  cases a
  simp [Bounds.zero, Bounds.mk.injEq]

/-- C5 (amended): bounds union is commutative when neither operand is the
zero bounds, and the zero bounds is a left identity for union. -/
theorem bounds_union_comm_of_ne_zero (a b : Bounds) :
    (a ≠ Bounds.zero → b ≠ Bounds.zero → a.addBounds b = b.addBounds a) ∧
    Bounds.zero.addBounds a = a := by
  constructor
  · intro ha hb
    rw [Bounds.addBounds, Bounds.addBounds,
      if_neg ((bounds_ne_zero_iff a).mp ha), if_neg ((bounds_ne_zero_iff b).mp hb)]
    simp only [ite_gt_eq_min, ite_gt_eq_max]
    rw [min_comm a.base.x, min_comm a.base.y, min_comm a.base.z,
      max_comm a.end_.x, max_comm a.end_.y, max_comm a.end_.z]
  · rw [Bounds.addBounds, if_pos ⟨rfl, rfl⟩]

/-- C5 witness: the amended statement at two concrete non-zero bounds. -/
theorem bounds_union_comm_of_ne_zero_witness :
    (Bounds.mk ⟨1, 1, 1⟩ ⟨2, 2, 2⟩).addBounds (Bounds.mk ⟨-1, 0, 3⟩ ⟨0, 4, 5⟩) =
      (Bounds.mk ⟨-1, 0, 3⟩ ⟨0, 4, 5⟩).addBounds (Bounds.mk ⟨1, 1, 1⟩ ⟨2, 2, 2⟩) ∧
    Bounds.zero.addBounds (Bounds.mk ⟨1, 1, 1⟩ ⟨2, 2, 2⟩) = Bounds.mk ⟨1, 1, 1⟩ ⟨2, 2, 2⟩ :=
  ⟨(bounds_union_comm_of_ne_zero _ _).1 (by decide) (by decide),
   (bounds_union_comm_of_ne_zero (Bounds.mk ⟨1, 1, 1⟩ ⟨2, 2, 2⟩) Bounds.zero).2⟩

/-- C5 counterexample: the zero bounds is not a right identity (and union
with it is not commutative) for a bounds that does not contain the origin:
`{(1,1,1),(2,2,2)} + zero = {(0,0,0),(2,2,2)}`. -/
theorem bounds_union_zero_right_counterexample :
    (Bounds.mk ⟨1, 1, 1⟩ ⟨2, 2, 2⟩).addBounds Bounds.zero ≠ Bounds.mk ⟨1, 1, 1⟩ ⟨2, 2, 2⟩ ∧
    (Bounds.mk ⟨1, 1, 1⟩ ⟨2, 2, 2⟩).addBounds Bounds.zero ≠
      Bounds.zero.addBounds (Bounds.mk ⟨1, 1, 1⟩ ⟨2, 2, 2⟩) := by
  constructor <;> decide

/-- C4: at width target 10 (non-defaulted), height/depth defaulted, axis
defaulted, and current lengths `(5, 1, 0)`, the code returns factor 1
because `width_factor`'s guard tests the depth argument, while the
specified per-axis computation yields `10 / 5 = 2`. -/
theorem compute_scale_factor_width_guard_divergence :
    (ScaleFeatureSet.mk 10 1 1 false true true Axis.X true).compute_scale_factor 5 1 0 =
      some 1 ∧
    (ScaleFeatureSet.mk 10 1 1 false true true Axis.X true).compute_scale_factor_spec 5 1 0 =
      some 2 := by
  refine ⟨by decide, ?_⟩
  norm_num [ScaleFeatureSet.compute_scale_factor_spec, floatDiv, factorMin]

/-- C3 (amended): adding template `t`, constructing children `a` then `c`,
and materializing `t` as `b` leaves the children in the order
`[b, a, c]` — the template's recorded insertion index is 0, so the
template-derived child is spliced in before both constructed children. -/
theorem node_template_insertion_order :
    ((((NodeT.leaf .nop "root").construct_template .box "t").construct_child
        .other "a" |>.construct_child .other "c").try_make_template "t" "b").map
      NodeT.children_names = .ok ["b", "a", "c"] := rfl

/-- C3 counterexample: the children order after that operation sequence is
not `[a, b, c]` as claimed. -/
theorem node_template_insertion_order_counterexample :
    ¬ ((((NodeT.leaf .nop "root").construct_template .box "t").construct_child
        .other "a" |>.construct_child .other "c").try_make_template "t" "b").map
      NodeT.children_names = .ok ["a", "b", "c"] := by
  intro h
  have h1 : ((((NodeT.leaf .nop "root").construct_template .box "t").construct_child
      .other "a" |>.construct_child .other "c").try_make_template "t" "b").map
        NodeT.children_names = Except.ok (ε := String) ["b", "a", "c"] := rfl
  rw [h1] at h
  exact absurd (Except.ok.inj h) (by decide)

/-- C6 (amended): every path successfully constructed by the dot-string
constructor has all of its parts matching the part regex. -/
theorem path_from_dot_string_parts_valid (dot_string : String) (parts : Path)
    (h : Path.fromDotString dot_string = .ok parts) :
    ∀ part ∈ parts, is_valid_path_part part = true := by
  unfold Path.fromDotString at h
  by_cases h0 : dot_string = "" ∨ dot_string = "."
  · rw [if_pos h0] at h
    cases h
    intro part hpart
    cases hpart
  · rw [if_neg h0] at h
    simp only [] at h
    rcases hfind : List.find? (fun part => !is_valid_path_part part)
        ((splitOnDot (match dot_string.data with
          | c :: cs => if c = '.' then cs else dot_string.data
          | [] => dot_string.data)).map (fun chars => String.mk chars)) with _ | bad
    · rw [hfind] at h
      simp only [Except.ok.injEq] at h
      subst h
      intro part hpart
      have := List.find?_eq_none.mp hfind part hpart
      simpa using this
    · exfalso
      rw [hfind] at h
      revert h
      dsimp only []
      split <;> exact fun h => Except.noConfusion h

/-- C6 witness: the amended statement at the concrete input `".a.b"`. -/
theorem path_from_dot_string_parts_valid_witness :
    is_valid_path_part "a" = true ∧ is_valid_path_part "b" = true :=
  ⟨path_from_dot_string_parts_valid ".a.b" ["a", "b"] rfl "a" (by decide),
   path_from_dot_string_parts_valid ".a.b" ["a", "b"] rfl "b" (by decide)⟩

/-- C6 counterexample: the parts-vector constructor performs no
validation, so a path holding the invalid part `"a b"` is constructed
successfully. -/
theorem path_parts_ctor_unvalidated_counterexample :
    ¬ (∀ part ∈ Path.fromParts ["a b"], is_valid_path_part part = true) := by
  decide

/-- C1: relative float evaluation — not relative and not percentage gives
`value × multiplier`; not relative but percentage uses the multiplier as
the percent amount; relative uses the scope's float for the relative name
times the multiplier; and a percentage finally multiplies by the scope's
float for the value's own name over 100. -/
theorem compute_relative_value_cases (v : RelativeFloatValue) (known : AncestorValues) :
    (v.relative_name = none → v.is_percentage = false →
      v.compute_relative_value known = some (v.value * v.multiplier)) ∧
    (∀ a, v.relative_name = none → v.is_percentage = true →
      known.get_float v.name = some a →
      v.compute_relative_value known = some (a * (v.multiplier / 100))) ∧
    (∀ rn r, v.relative_name = some rn → v.is_percentage = false →
      known.get_float rn = some r →
      v.compute_relative_value known = some (r * v.multiplier)) ∧
    (∀ rn r a, v.relative_name = some rn → v.is_percentage = true →
      known.get_float rn = some r → known.get_float v.name = some a →
      v.compute_relative_value known = some (a * (r * v.multiplier / 100))) := by
  refine ⟨?_, ?_, ?_, ?_⟩
  · intro h1 h2
    simp [RelativeFloatValue.compute_relative_value, h1, h2]
  · intro a h1 h2 h3
    simp [RelativeFloatValue.compute_relative_value, h1, h2, h3]
  · intro rn r h1 h2 h3
    simp [RelativeFloatValue.compute_relative_value, h1, h2, h3]
  · intro rn r a h1 h2 h3 h4
    simp [RelativeFloatValue.compute_relative_value, h1, h2, h3, h4]

/-- C1 witness: `width = "2height%"` against a scope binding `height` to
50 and `width` to 10 evaluates to `10 × (50 × 2 / 100) = 10`. -/
theorem compute_relative_value_cases_witness :
    (RelativeFloatValue.mk "width" "w" 0 false 2 true (some "height")).compute_relative_value
      [ValueEntry.floatV "height" "h" 50, ValueEntry.floatV "width" "w" 10] = some 10 := by
  have h := (compute_relative_value_cases
    (RelativeFloatValue.mk "width" "w" 0 false 2 true (some "height"))
    [ValueEntry.floatV "height" "h" 50, ValueEntry.floatV "width" "w" 10]).2.2.2
    "height" 50 10 rfl rfl (by decide) (by decide)
  rw [h]
  norm_num

/-- C10: combining two geometries whose triangle indices are in range
yields a geometry with the sum of the vertex counts whose triangle
indices are all below that sum. -/
theorem combine_with_preserves_index_bounds (g other : Geometry)
    (hg : ∀ t ∈ g.triangles, t.1 < g.vertexes.length ∧
      t.2.1 < g.vertexes.length ∧ t.2.2 < g.vertexes.length)
    (ho : ∀ t ∈ other.triangles, t.1 < other.vertexes.length ∧
      t.2.1 < other.vertexes.length ∧ t.2.2 < other.vertexes.length) :
    (g.combine_with other).vertexes.length =
      g.vertexes.length + other.vertexes.length ∧
    ∀ t ∈ (g.combine_with other).triangles,
      t.1 < g.vertexes.length + other.vertexes.length ∧
      t.2.1 < g.vertexes.length + other.vertexes.length ∧
      t.2.2 < g.vertexes.length + other.vertexes.length := by
  constructor
  · simp [Geometry.combine_with, Geometry.make]
  · intro t ht
    simp only [Geometry.combine_with, Geometry.make, List.mem_append, List.mem_map] at ht
    rcases ht with ht | ⟨t', ht', rfl⟩
    · have := hg t ht
      omega
    · have := ho t' ht'
      simp only []
      omega

/-- C10 witness: the statement at two concrete in-range geometries. -/
theorem combine_with_preserves_index_bounds_witness :
    ((Geometry.make [⟨0, 0, 0⟩] [(0, 0, 0)] Point.zero RGBA.default 0 0 "").combine_with
        (Geometry.make [⟨0, 0, 0⟩, ⟨1, 0, 0⟩] [(0, 1, 1)] Point.zero RGBA.default 0 0
          "")).vertexes.length = 1 + 2 ∧
    ∀ t ∈ ((Geometry.make [⟨0, 0, 0⟩] [(0, 0, 0)] Point.zero RGBA.default 0 0 "").combine_with
        (Geometry.make [⟨0, 0, 0⟩, ⟨1, 0, 0⟩] [(0, 1, 1)] Point.zero RGBA.default 0 0
          "")).triangles, t.1 < 1 + 2 ∧ t.2.1 < 1 + 2 ∧ t.2.2 < 1 + 2 :=
  combine_with_preserves_index_bounds
    (Geometry.make [⟨0, 0, 0⟩] [(0, 0, 0)] Point.zero RGBA.default 0 0 "")
    (Geometry.make [⟨0, 0, 0⟩, ⟨1, 0, 0⟩] [(0, 1, 1)] Point.zero RGBA.default 0 0 "")
    (by decide) (by decide)

theorem path_lexComparison_neg (a : List String) :
    ∀ b, Path.lexComparison a b = -Path.lexComparison b a := by
  induction a with
  | nil => intro b; cases b <;> simp [Path.lexComparison]
  | cons x xs ih =>
    intro b
    cases b with
    | nil => simp [Path.lexComparison]
    | cons y ys =>
      simp only [Path.lexComparison, gt_iff_lt]
      rcases lt_trichotomy x y with h | h | h
      · simp [h, lt_asymm h]
      · subst h
        simp only [lt_irrefl, if_false]
        exact ih ys
      · simp [h, lt_asymm h]

theorem path_comparison_neg (a b : Path) : Path.comparison a b = -Path.comparison b a := by
  unfold Path.comparison
  rcases Nat.lt_trichotomy a.length b.length with h | h | h
  · rw [if_neg (by omega : ¬a.length > b.length), if_pos h,
      if_pos (by omega : b.length > a.length)]
  · rw [if_neg (by omega : ¬a.length > b.length), if_neg (by omega : ¬a.length < b.length),
      if_neg (by omega : ¬b.length > a.length), if_neg (by omega : ¬b.length < a.length)]
    exact path_lexComparison_neg a b
  · rw [if_pos (by omega : a.length > b.length), if_neg (by omega : ¬b.length > a.length),
      if_pos (by omega : b.length < a.length)]
    norm_num

theorem path_comparison_self (a : Path) : Path.comparison a a = 0 := by
  have h := path_comparison_neg a a
  omega

theorem path_lexComparison_eq_zero (a : List String) :
    ∀ b, a.length = b.length → Path.lexComparison a b = 0 → a = b := by
  induction a with
  | nil =>
    intro b hlen _
    cases b with
    | nil => rfl
    | cons y ys => cases hlen
  | cons x xs ih =>
    intro b hlen hcmp
    cases b with
    | nil => cases hlen
    | cons y ys =>
      rw [Path.lexComparison] at hcmp
      by_cases h1 : x > y
      · rw [if_pos h1] at hcmp
        exact absurd hcmp (by decide)
      · rw [if_neg h1] at hcmp
        by_cases h2 : x < y
        · rw [if_pos h2] at hcmp
          exact absurd hcmp (by decide)
        · rw [if_neg h2] at hcmp
          have hxy : x = y := le_antisymm (not_lt.mp h1) (not_lt.mp h2)
          subst hxy
          rw [ih ys (by simpa using hlen) hcmp]

theorem path_comparison_eq_zero_iff (a b : Path) : Path.comparison a b = 0 ↔ a = b := by
  constructor
  · intro h
    rw [Path.comparison] at h
    by_cases h1 : a.length > b.length
    · rw [if_pos h1] at h
      exact absurd h (by decide)
    · rw [if_neg h1] at h
      by_cases h2 : a.length < b.length
      · rw [if_pos h2] at h
        exact absurd h (by decide)
      · rw [if_neg h2] at h
        exact path_lexComparison_eq_zero a b (by omega) h
  · intro h
    subst h
    exact path_comparison_self a

theorem path_lt_asymm (a b : Path) (h : Path.lt a b = true) : Path.lt b a = false := by
  simp only [Path.lt, decide_eq_true_eq] at h
  simp only [Path.lt, decide_eq_false_iff_not, not_lt]
  have := path_comparison_neg a b
  omega

theorem path_lt_total_eq (a b : Path) (hab : Path.lt a b = false)
    (hba : Path.lt b a = false) : a = b := by
  simp only [Path.lt, decide_eq_false_iff_not, not_lt] at hab hba
  have := path_comparison_neg a b
  exact (path_comparison_eq_zero_iff a b).mp (by omega)

theorem pathsWithTag_nil (tag : RenderDifferences) : pathsWithTag [] tag = [] := rfl

theorem pathsWithTag_cons (p : Path) (t tag : RenderDifferences)
    (rest : List (Path × RenderDifferences)) :
    pathsWithTag ((p, t) :: rest) tag =
      if t = tag then p :: pathsWithTag rest tag else pathsWithTag rest tag := by
  by_cases h : t = tag <;> simp [pathsWithTag, List.filterMap_cons, h]

theorem pathsWithTag_append (l1 l2 : List (Path × RenderDifferences))
    (tag : RenderDifferences) :
    pathsWithTag (l1 ++ l2) tag = pathsWithTag l1 tag ++ pathsWithTag l2 tag := by
  simp [pathsWithTag, List.filterMap_append]

theorem pathsWithTag_flag_block (c : Prop) [Decidable c] (p : Path)
    (t tag : RenderDifferences) (h : t ≠ tag)
    (rest : List (Path × RenderDifferences)) :
    pathsWithTag ((if c then [(p, t)] else []) ++ rest) tag = pathsWithTag rest tag := by
  rw [pathsWithTag_append]
  split <;> simp [pathsWithTag_cons, pathsWithTag_nil, h]

theorem pathsWithTag_flag_single (c : Prop) [Decidable c] (p : Path)
    (t tag : RenderDifferences) (h : t ≠ tag) :
    pathsWithTag (if c then [(p, t)] else []) tag = [] := by
  split <;> simp [pathsWithTag_cons, pathsWithTag_nil, h]

theorem diff_missing_aux (n : Nat) :
    ∀ (a b : List (Path × Geometry)), a.length + b.length ≤ n →
      pathsWithTag (diffEntries a b) .FirstMissing =
        pathsWithTag (diffEntries b a) .SecondMissing := by
  induction n with
  | zero =>
    intro a b hlen
    have ha : a = [] := List.length_eq_zero.mp (by omega)
    have hb : b = [] := List.length_eq_zero.mp (by omega)
    subst ha
    subst hb
    simp [diffEntries, pathsWithTag_nil]
  | succ n ih =>
    intro a b hlen
    rcases a with _ | ⟨⟨p, g⟩, xs⟩
    · rcases b with _ | ⟨⟨q, hg⟩, ys⟩
      · simp [diffEntries, pathsWithTag_nil]
      · simp only [List.length_nil, List.length_cons] at hlen
        simp only [diffEntries, pathsWithTag_cons, reduceCtorEq, reduceIte,
          if_true, if_false]
        exact congrArg (q :: ·) (ih [] ys (by simp; omega))
    · rcases b with _ | ⟨⟨q, hg⟩, ys⟩
      · simp only [List.length_nil, List.length_cons] at hlen
        simp only [diffEntries, pathsWithTag_cons, reduceCtorEq, reduceIte,
          if_true, if_false]
        exact ih xs [] (by simp; omega)
      · simp only [List.length_cons] at hlen
        cases hpq : Path.lt p q with
        | true =>
          have hqp := path_lt_asymm p q hpq
          simp only [diffEntries, hpq, hqp, Bool.false_eq_true, if_false, if_true,
            reduceIte, pathsWithTag_cons, reduceCtorEq]
          exact ih xs ((q, hg) :: ys) (by simp; omega)
        | false =>
          cases hqp : Path.lt q p with
          | true =>
            simp only [diffEntries, hpq, hqp, Bool.false_eq_true, if_false, if_true,
              reduceIte, pathsWithTag_cons, reduceCtorEq]
            exact congrArg (q :: ·) (ih ((p, g) :: xs) ys (by simp; omega))
          | false =>
            simp only [diffEntries, hpq, hqp, Bool.false_eq_true, if_false, reduceIte,
              pathsWithTag_append, List.append_assoc]
            rw [pathsWithTag_flag_single _ p RenderDifferences.Pos
                RenderDifferences.FirstMissing (by decide),
              pathsWithTag_flag_single _ p RenderDifferences.Bounds
                RenderDifferences.FirstMissing (by decide),
              pathsWithTag_flag_single _ p RenderDifferences.Color
                RenderDifferences.FirstMissing (by decide),
              pathsWithTag_flag_single _ p RenderDifferences.Text
                RenderDifferences.FirstMissing (by decide),
              pathsWithTag_flag_single _ q RenderDifferences.Pos
                RenderDifferences.SecondMissing (by decide),
              pathsWithTag_flag_single _ q RenderDifferences.Bounds
                RenderDifferences.SecondMissing (by decide),
              pathsWithTag_flag_single _ q RenderDifferences.Color
                RenderDifferences.SecondMissing (by decide),
              pathsWithTag_flag_single _ q RenderDifferences.Text
                RenderDifferences.SecondMissing (by decide)]
            simp only [List.nil_append]
            exact ih xs ys (by omega)

/-- C7: the `FirstMissing` path set of `a.differences_from(b)` equals the
`SecondMissing` path set of `b.differences_from(a)`. -/
theorem render_tree_diff_missing_symmetric (a b : RenderTree) (p : Path) :
    p ∈ pathsWithTag (a.differences_from b) .FirstMissing ↔
      p ∈ pathsWithTag (b.differences_from a) .SecondMissing := by
  rw [RenderTree.differences_from, RenderTree.differences_from,
    diff_missing_aux (a.rendered.length + b.rendered.length) a.rendered b.rendered le_rfl]

theorem mapContains_mapInsert (p : Path) (g : Geometry) :
    ∀ (m : List (Path × Geometry)) (q : Path),
      mapContains (mapInsert m p g) q = true ↔ (q = p ∨ mapContains m q = true) := by
  intro m
  induction m with
  | nil =>
    intro q
    simp [mapContains, mapInsert, eq_comm]
  | cons rs rest ih =>
    intro q
    obtain ⟨r, s⟩ := rs
    rw [mapInsert]
    by_cases h1 : Path.lt p r = true
    · rw [if_pos h1]
      simp only [mapContains, List.any_cons, Bool.or_eq_true, decide_eq_true_eq]
      tauto
    · rw [if_neg h1]
      by_cases h2 : Path.lt r p = true
      · rw [if_pos h2]
        simp only [mapContains, List.any_cons, Bool.or_eq_true, decide_eq_true_eq]
        have := ih q
        simp only [mapContains, Bool.or_eq_true, decide_eq_true_eq] at this
        tauto
      · rw [if_neg h2]
        have hrp : r = p :=
          path_lt_total_eq r p (Bool.not_eq_true _ ▸ h2) (Bool.not_eq_true _ ▸ h1)
        subst hrp
        simp only [mapContains, List.any_cons, Bool.or_eq_true, decide_eq_true_eq]
        tauto

theorem renderTreeWF_update (rt : RenderTree) (hwf : RenderTreeWF rt) (p : Path)
    (g : Geometry) : RenderTreeWF (rt.update p g) := by
  obtain ⟨hnd, hiff⟩ := hwf
  rw [RenderTreeWF, RenderTree.update]
  by_cases hc : mapContains rt.rendered p = true
  · rw [if_pos hc]
    refine ⟨hnd, fun q => ?_⟩
    rw [mapContains_mapInsert]
    constructor
    · intro h
      exact Or.inr ((hiff q).mp h)
    · rintro (rfl | h)
      · exact (hiff q).mpr hc
      · exact (hiff q).mpr h
  · rw [if_neg hc]
    constructor
    · rw [List.nodup_append]
      refine ⟨hnd, List.nodup_singleton p, fun a ha hap => ?_⟩
      rw [List.mem_singleton] at hap
      subst hap
      exact hc ((hiff a).mp ha)
    · intro q
      rw [List.mem_append, List.mem_singleton, mapContains_mapInsert]
      constructor
      · rintro (h | rfl)
        · exact Or.inr ((hiff q).mp h)
        · exact Or.inl rfl
      · rintro (rfl | h)
        · exact Or.inr rfl
        · exact Or.inl ((hiff q).mpr h)

theorem mapContains_map_fst_preserving (F : Path × Geometry → Path × Geometry)
    (hF : ∀ e, (F e).1 = e.1) :
    ∀ (m : List (Path × Geometry)) (q : Path),
      mapContains (m.map F) q = mapContains m q := by
  intro m
  induction m with
  | nil => intro q; rfl
  | cons e rest ih =>
    intro q
    simp only [List.map_cons, mapContains, List.any_cons, hF e]
    have := ih q
    simp only [mapContains] at this
    rw [this]

theorem renderTreeWF_move (rt : RenderTree) (hwf : RenderTreeWF rt) (path : Path)
    (by_pos : Point) (excluding : Option Path) (excluding_parent : Bool) :
    RenderTreeWF (rt.move_parent_and_descendants_by_impl path by_pos excluding
      excluding_parent) := by
  obtain ⟨hnd, hiff⟩ := hwf
  refine ⟨hnd, fun q => ?_⟩
  rw [RenderTree.move_parent_and_descendants_by_impl]
  rw [mapContains_map_fst_preserving _ (fun e => by dsimp only []; split <;> rfl)]
  exact hiff q

theorem foldl_preserves {α β : Type _} (P : α → Prop) (f : α → β → α)
    (h : ∀ a b, P a → P (f a b)) : ∀ (l : List β) (a : α), P a → P (l.foldl f a) := by
  intro l
  induction l with
  | nil => exact fun a ha => ha
  | cons b bs ih => exact fun a ha => ih _ (h a b ha)

theorem renderTreeWF_scale (rt : RenderTree) (hwf : RenderTreeWF rt) (path : Path)
    (factor : ℚ) : RenderTreeWF (rt.scale_parent_and_descendants_by path factor) :=
  foldl_preserves RenderTreeWF _
    (fun a b ha => renderTreeWF_update a ha b.1 (b.2.scale_by factor))
    (rt.descendants_of path true) rt hwf

theorem renderTreeWF_rotate_at (path : Path) (rotation_pt : Point) (rotation : Rotation)
    (rt : RenderTree) (hwf : RenderTreeWF rt) :
    RenderTreeWF (RenderTree.rotate_at path rotation_pt rotation rt) := by
  rw [RenderTree.rotate_at]
  rcases rt.get path with _ | g
  · exact hwf
  · exact renderTreeWF_update rt hwf path (g.rotate_around rotation_pt rotation)

theorem renderTreeWF_rotate_children (fuel : Nat) :
    ∀ (rt : RenderTree) (path : Path) (rotation_pt : Point) (rotation : Rotation),
      RenderTreeWF rt →
        RenderTreeWF (RenderTree.rotate_children_of fuel rt path rotation_pt rotation) := by
  induction fuel with
  | zero => intro rt path pt rot h; exact h
  | succ fuel ih =>
    intro rt path pt rot h
    rw [RenderTree.rotate_children_of]
    exact renderTreeWF_rotate_at path pt rot _
      (foldl_preserves RenderTreeWF _ (fun a b ha => ih a b.1 pt rot ha)
        (rt.children_of path) rt h)

theorem renderTreeWF_rotate_in_place (fuel : Nat) (rt : RenderTree)
    (hwf : RenderTreeWF rt) (path : Path) (rotation : Rotation) :
    RenderTreeWF (RenderTree.rotate_parent_and_descendants_in_place fuel rt path rotation) := by
  rw [RenderTree.rotate_parent_and_descendants_in_place]
  exact renderTreeWF_move _ (renderTreeWF_rotate_children fuel rt path _ rotation hwf)
    path _ none false

theorem renderTreeWF_empty : RenderTreeWF RenderTree.empty := by
  refine ⟨List.nodup_nil, fun p => ?_⟩
  simp [RenderTree.empty, mapContains]

/-- C9: starting from the empty render tree, after any sequence of
update, move, scale, rotate and invalidate operations, the insertion-order
list holds exactly the keys of the path→geometry map, each exactly once. -/
theorem render_tree_insertion_order_invariant (ops : List RenderTreeOp) :
    RenderTreeWF (RenderTree.empty.applyOps ops) := by
  rw [RenderTree.applyOps]
  refine foldl_preserves RenderTreeWF RenderTree.applyOp ?_ ops RenderTree.empty
    renderTreeWF_empty
  intro rt op h
  cases op with
  | update path geometry => exact renderTreeWF_update rt h path geometry
  | move path by_pos excluding excluding_parent =>
    exact renderTreeWF_move rt h path by_pos excluding excluding_parent
  | scale path factor => exact renderTreeWF_scale rt h path factor
  | rotate path rotation fuel => exact renderTreeWF_rotate_in_place fuel rt h path rotation
  | invalidate path => exact renderTreeWF_empty

theorem index_of_next_event_ge (events : List Event) (filter : EventFilter) :
    ∀ (d index : Nat), events.length - index ≤ d →
      index ≤ EventServer.index_of_next_event events filter index := by
  intro d
  induction d with
  | zero =>
    intro index hd
    rw [EventServer.index_of_next_event]
    rw [dif_neg (by omega)]
  | succ d ih =>
    intro index hd
    rw [EventServer.index_of_next_event]
    by_cases h : index < events.length
    · rw [dif_pos h]
      split
      · exact Nat.le_of_succ_le (ih (index + 1) (by omega))
      · exact le_refl index
    · rw [dif_neg h]

theorem mem_popIndices (token i : Nat) (log : List (Nat × Nat)) :
    i ∈ popIndices token log ↔ (token, i) ∈ log := by
  simp only [popIndices, List.mem_filterMap]
  constructor
  · rintro ⟨⟨t1, t2⟩, hmem, hif⟩
    dsimp only [] at hif
    split at hif
    · rename_i ht
      cases hif
      rw [← ht]
      exact hmem
    · cases hif
  · intro h
    exact ⟨(token, i), h, by simp⟩

theorem popIndices_append (token : Nat) (l1 l2 : List (Nat × Nat)) :
    popIndices token (l1 ++ l2) = popIndices token l1 ++ popIndices token l2 := by
  simp [popIndices, List.filterMap_append]

theorem popIndices_other (token t i : Nat) (h : t ≠ token) :
    popIndices token [(t, i)] = [] := by
  simp [popIndices, h]

theorem popIndices_same (token i : Nat) : popIndices token [(token, i)] = [i] := by
  simp [popIndices]

theorem lookup_some_mem {α β : Type _} [BEq α] [LawfulBEq α] (a : α) (b : β) :
    ∀ (l : List (α × β)), List.lookup a l = some b → (a, b) ∈ l := by
  intro l
  induction l with
  | nil => intro h; cases h
  | cons kv rest ih =>
    obtain ⟨k, v⟩ := kv
    intro h
    by_cases hak : a = k
    · subst hak
      simp only [List.lookup, beq_self_eq_true] at h
      cases h
      exact List.mem_cons_self _ _
    · simp only [List.lookup, beq_eq_false_iff_ne.mpr hak] at h
      exact List.mem_cons_of_mem _ (ih h)

theorem lookup_update_listener (token : Nat) (newpos : ListenerPosition) :
    ∀ (l : List (Nat × ListenerPosition)) (token' : Nat),
      List.lookup token'
          (l.map (fun tp => if tp.1 = token then (tp.1, newpos) else tp)) =
        if token' = token then (List.lookup token' l).map (fun _ => newpos)
        else List.lookup token' l := by
  intro l
  induction l with
  | nil =>
    intro token'
    simp only [List.map_nil, List.lookup]
    split <;> rfl
  | cons kv rest ih =>
    obtain ⟨k, v⟩ := kv
    intro token'
    by_cases hk : k = token
    · have hhead : (if (k, v).1 = token then ((k, v).1, newpos) else (k, v)) = (k, newpos) :=
        if_pos hk
      rw [List.map_cons, hhead]
      by_cases ht : token' = k
      · subst ht
        simp [List.lookup, hk]
      · have hbe : (token' == k) = false := beq_eq_false_iff_ne.mpr ht
        simp only [List.lookup, hbe]
        rw [ih token']
    · have hhead : (if (k, v).1 = token then ((k, v).1, newpos) else (k, v)) = (k, v) :=
        if_neg hk
      rw [List.map_cons, hhead]
      by_cases ht : token' = k
      · subst ht
        simp [List.lookup, hk]
      · have hbe : (token' == k) = false := beq_eq_false_iff_ne.mpr ht
        simp only [List.lookup, hbe]
        rw [ih token']

theorem eventLogWF_step (s : EventServer) (log : List (Nat × Nat)) (action : EventAction)
    (h : EventLogWF s log) :
    EventLogWF (EventServer.step s log action).1 (EventServer.step s log action).2 := by
  obtain ⟨ha, hb, hc, hd, he⟩ := h
  cases action with
  | register filter =>
    simp only [EventServer.step, EventServer.request_listener]
    refine ⟨?_, ?_, ?_, hd, ?_⟩
    · intro ti hti
      exact Nat.lt_succ_of_lt (ha ti hti)
    · intro tp htp
      rcases List.mem_cons.mp htp with rfl | htp'
      · exact Nat.lt_succ_self _
      · exact Nat.lt_succ_of_lt (hb tp htp')
    · rw [List.map_cons, List.nodup_cons]
      refine ⟨fun hmem => ?_, hc⟩
      rcases List.mem_map.mp hmem with ⟨tp, htp, hfst⟩
      have := hb tp htp
      omega
    · intro token pos hlk i hi
      by_cases htok : token = s.token_counter
      · subst htok
        have hmem := (mem_popIndices _ _ _).mp hi
        have h2 : s.token_counter < s.token_counter := ha (s.token_counter, i) hmem
        omega
      · simp only [List.lookup, beq_eq_false_iff_ne.mpr htok] at hlk
        exact he token pos hlk i hi
  | append event =>
    exact ⟨ha, hb, hc, hd, he⟩
  | pop token =>
    simp only [EventServer.step]
    rcases hlk : List.lookup token s.listener_pos with _ | pos
    · have htp : EventServer.try_pop_event s token = (s, none) := by
        rw [EventServer.try_pop_event, hlk]
      rw [htp]
      exact ⟨ha, hb, hc, hd, he⟩
    · by_cases hei :
        EventServer.index_of_next_event s.events pos.filter pos.index < s.events.length
      · have htp : EventServer.try_pop_event s token =
            ({ s with
                listener_pos := s.listener_pos.map (fun tp =>
                  if tp.1 = token then
                    (tp.1, ⟨pos.filter,
                      EventServer.index_of_next_event s.events pos.filter pos.index + 1⟩)
                  else tp) },
             some (EventServer.index_of_next_event s.events pos.filter pos.index,
               s.events.get ⟨EventServer.index_of_next_event s.events pos.filter pos.index,
                 hei⟩)) := by
          rw [EventServer.try_pop_event, hlk]
          dsimp only []
          rw [dif_pos hei]
          rfl
        rw [htp]
        dsimp only []
        have htoklt : token < s.token_counter := hb _ (lookup_some_mem token pos _ hlk)
        have hcursor : pos.index ≤
            EventServer.index_of_next_event s.events pos.filter pos.index :=
          index_of_next_event_ge s.events pos.filter (s.events.length - pos.index)
            pos.index le_rfl
        have hfst : ((s.listener_pos.map (fun tp =>
            if tp.1 = token then
              (tp.1, ⟨pos.filter,
                EventServer.index_of_next_event s.events pos.filter pos.index + 1⟩)
            else tp)).map Prod.fst) = s.listener_pos.map Prod.fst := by
          rw [List.map_map]
          congr 1
          funext tp
          dsimp only [Function.comp]
          split <;> rfl
        refine ⟨?_, ?_, ?_, ?_, ?_⟩
        · intro ti hti
          rcases List.mem_append.mp hti with hold | hnew
          · exact ha ti hold
          · rw [List.mem_singleton] at hnew
            subst hnew
            exact htoklt
        · intro tp htp
          rcases List.mem_map.mp htp with ⟨tp0, htp0, rfl⟩
          have h1 := hb tp0 htp0
          split <;> simpa using h1
        · rw [hfst]
          exact hc
        · intro token'
          by_cases ht : token' = token
          · subst ht
            rw [popIndices_append, popIndices_same]
            rw [List.chain'_append]
            refine ⟨hd token', List.chain'_singleton _, fun x hx y hy => ?_⟩
            rw [List.head?_cons, Option.mem_some_iff] at hy
            subst hy
            rcases List.mem_getLast?_eq_getLast hx with ⟨hne, rfl⟩
            have hxmem := List.getLast_mem hne
            have := he token' pos hlk _ hxmem
            omega
          · rw [popIndices_append, popIndices_other token' token _ (fun hh => ht hh.symm),
              List.append_nil]
            exact hd token'
        · intro token' pos' hlk' i hi
          rw [lookup_update_listener] at hlk'
          by_cases ht : token' = token
          · rw [if_pos ht] at hlk'
            subst ht
            rw [hlk] at hlk'
            have hpos' : pos' = ⟨pos.filter,
                EventServer.index_of_next_event s.events pos.filter pos.index + 1⟩ :=
              (Option.some.inj hlk').symm
            subst hpos'
            rw [popIndices_append, popIndices_same, List.mem_append,
              List.mem_singleton] at hi
            rcases hi with hold | rfl
            · have h3 := he token' pos hlk i hold
              show i < EventServer.index_of_next_event s.events pos.filter pos.index + 1
              omega
            · show EventServer.index_of_next_event s.events pos.filter pos.index <
                EventServer.index_of_next_event s.events pos.filter pos.index + 1
              omega
          · rw [if_neg ht] at hlk'
            rw [popIndices_append, popIndices_other token' token _ (fun hh => ht hh.symm),
              List.append_nil] at hi
            exact he token' pos' hlk' i hi
      · have htp : EventServer.try_pop_event s token = (s, none) := by
          rw [EventServer.try_pop_event, hlk]
          dsimp only []
          rw [dif_neg hei]
        rw [htp]
        exact ⟨ha, hb, hc, hd, he⟩

theorem eventLogWF_run (actions : List EventAction) :
    EventLogWF (EventServer.run actions).1 (EventServer.run actions).2 := by
  rw [EventServer.run]
  have hinit : EventLogWF EventServer.init [] := by
    refine ⟨?_, ?_, ?_, ?_, ?_⟩
    · intro ti hti; cases hti
    · intro tp htp; cases htp
    · exact List.nodup_nil
    · intro token; exact List.chain'_nil
    · intro token pos hlk; cases hlk
  exact foldl_preserves (fun acc : EventServer × List (Nat × Nat) => EventLogWF acc.1 acc.2)
    (fun acc action => EventServer.step acc.1 acc.2 action)
    (fun acc action hacc => eventLogWF_step acc.1 acc.2 action hacc)
    actions (EventServer.init, []) hinit

/-- C8: across any interleaving of listener registrations, event appends
and pops, the append-order indices a given listener's successful pops
return are strictly increasing (so no event is delivered twice to it). -/
theorem event_pop_indices_strictly_increasing (actions : List EventAction) (token : Nat) :
    List.Chain' (· < ·) (popIndices token (EventServer.run actions).2) :=
  (eventLogWF_run actions).2.2.2.1 token

section TopologicalSort

variable (deps : List (String × Option String)) (aliases : List (String × String))

theorem mem_keys_of_resolvedDep (n d : String)
    (h : resolvedDep deps aliases n = some d) : n ∈ deps.map Prod.fst := by
  rw [resolvedDep] at h
  rcases hlk : List.lookup n deps with _ | od
  · rw [hlk] at h
    cases h
  · have hmem := lookup_some_mem n od deps hlk
    exact List.mem_map.mpr ⟨(n, od), hmem, rfl⟩

theorem depIter_add (a : Nat) :
    ∀ (b : Nat) (n : String),
      depIter deps aliases (a + b) n =
        (depIter deps aliases a n).bind (depIter deps aliases b) := by
  intro b
  induction b with
  | zero =>
    intro n
    cases h : depIter deps aliases a n <;> simp [depIter, h]
  | succ b ih =>
    intro n
    have h1 : a + (b + 1) = (a + b) + 1 := by omega
    rw [h1, depIter, ih n]
    cases h : depIter deps aliases a n with
    | none => rfl
    | some m => rfl

theorem chainDepth_none_iter :
    ∀ (f : Nat) (n : String), chainDepth deps aliases f n = none →
      ∀ i, i < f → ∃ m, depIter deps aliases i n = some m ∧
        (resolvedDep deps aliases m).isSome = true := by
  intro f
  induction f with
  | zero =>
    intro n _ i hi
    omega
  | succ f ih =>
    intro n h i hi
    rw [chainDepth] at h
    rcases hrd : resolvedDep deps aliases n with _ | dep
    · rw [hrd] at h
      cases h
    · rw [hrd] at h
      dsimp only [] at h
      have hnone : chainDepth deps aliases f dep = none := by
        rcases hcd : chainDepth deps aliases f dep with _ | w
        · rfl
        · rw [hcd] at h
          cases h
      cases i with
      | zero =>
        exact ⟨n, rfl, by rw [hrd]; rfl⟩
      | succ i =>
        obtain ⟨m, hm, hsome⟩ := ih dep hnone i (by omega)
        refine ⟨m, ?_, hsome⟩
        have h2 : i + 1 = 1 + i := by omega
        rw [h2, depIter_add deps aliases 1 i n]
        have h3 : depIter deps aliases 1 n = some dep := hrd
        rw [h3]
        exact hm

theorem chainDepth_mono :
    ∀ (f : Nat) (n : String) (w : Nat), chainDepth deps aliases f n = some w →
      ∀ f', f ≤ f' → chainDepth deps aliases f' n = some w := by
  intro f
  induction f with
  | zero =>
    intro n w h
    cases h
  | succ f ih =>
    intro n w h f' hf'
    cases f' with
    | zero => omega
    | succ f'' =>
      rcases hrd : resolvedDep deps aliases n with _ | dep
      · rw [chainDepth, hrd] at h
        rw [chainDepth, hrd]
        exact h
      · rw [chainDepth, hrd] at h
        rw [chainDepth, hrd]
        dsimp only [] at h ⊢
        obtain ⟨u, hu, huw⟩ := Option.map_eq_some'.mp h
        rw [ih dep u hu f'' (by omega), ← huw]
        rfl

theorem chainDepth_none_of_cycle :
    ∀ (f : Nat) (v : String), (∃ c, depIter deps aliases (c + 1) v = some v) →
      chainDepth deps aliases f v = none := by
  intro f
  induction f with
  | zero => intro v _; rfl
  | succ f ih =>
    rintro v ⟨c, hc⟩
    have h1 : depIter deps aliases (1 + c) v = some v := by
      rw [Nat.add_comm]
      exact hc
    rw [depIter_add deps aliases 1 c v] at h1
    obtain ⟨m, hm1, hmc⟩ := Option.bind_eq_some.mp h1
    have hpred : resolvedDep deps aliases v = some m := hm1
    have hm_cycle : depIter deps aliases (c + 1) m = some m := by
      rw [depIter, hmc]
      exact hpred
    rw [chainDepth, hpred]
    dsimp only []
    rw [ih m ⟨c, hm_cycle⟩]
    rfl

theorem cycle_from_repeat (n : String) (i j : Nat) (hlt : i < j) (vi : String)
    (hvi : depIter deps aliases i n = some vi)
    (hvj : depIter deps aliases j n = some vi) : DepCyclic deps aliases := by
  refine ⟨vi, j - i - 1, ?_⟩
  have h1 : (j - i - 1) + 1 = j - i := by omega
  rw [h1]
  have h2 : j = i + (j - i) := by omega
  rw [h2, depIter_add deps aliases i (j - i) n, hvi] at hvj
  exact hvj

theorem cyclic_of_chainDepth_none (n : String)
    (h : chainDepth deps aliases (deps.length + 1) n = none) : DepCyclic deps aliases := by
  have hiter : ∀ i, i ≤ deps.length →
      ∃ m, depIter deps aliases i n = some m ∧ m ∈ deps.map Prod.fst := by
    intro i hi
    obtain ⟨m, hm, hsome⟩ :=
      chainDepth_none_iter deps aliases (deps.length + 1) n h i (by omega)
    refine ⟨m, hm, ?_⟩
    rcases ho : resolvedDep deps aliases m with _ | d
    · rw [ho] at hsome
      cases hsome
    · exact mem_keys_of_resolvedDep deps aliases m d ho
  have hmaps : ∀ i ∈ Finset.range (deps.length + 1),
      (depIter deps aliases i n).getD "" ∈ (deps.map Prod.fst).toFinset := by
    intro i hi
    obtain ⟨m, hm, hmem⟩ := hiter i (by have := Finset.mem_range.mp hi; omega)
    rw [hm]
    exact List.mem_toFinset.mpr hmem
  have hcard : (deps.map Prod.fst).toFinset.card < (Finset.range (deps.length + 1)).card := by
    rw [Finset.card_range]
    have h1 := List.toFinset_card_le (deps.map Prod.fst)
    rw [List.length_map] at h1
    omega
  obtain ⟨i, hi, j, hj, hij, hfeq⟩ :=
    Finset.exists_ne_map_eq_of_card_lt_of_maps_to hcard hmaps
  obtain ⟨vi, hvi, _⟩ := hiter i (by have := Finset.mem_range.mp hi; omega)
  obtain ⟨vj, hvj, _⟩ := hiter j (by have := Finset.mem_range.mp hj; omega)
  have hveq : vi = vj := by
    rw [hvi, hvj] at hfeq
    simpa using hfeq
  rcases Nat.lt_or_ge i j with hlt | hge
  · exact cycle_from_repeat deps aliases n i j hlt vi hvi (hveq ▸ hvj)
  · have hlt : j < i := by omega
    exact cycle_from_repeat deps aliases n j i hlt vj hvj (hveq ▸ hvi)

theorem sorted_indexOf_lt (g : String → Nat) (l : List String)
    (hs : List.Sorted (fun a b => g a ≤ g b) l) (d n : String) (hd : d ∈ l) (hn : n ∈ l)
    (hlt : g d < g n) : l.indexOf d < l.indexOf n := by
  by_contra hcon
  push_neg at hcon
  have hin : l.indexOf n < l.length := List.indexOf_lt_length.mpr hn
  have hid : l.indexOf d < l.length := List.indexOf_lt_length.mpr hd
  have hne : l.indexOf n ≠ l.indexOf d := by
    intro he
    have hgeth : l.get ⟨l.indexOf n, hin⟩ = l.get ⟨l.indexOf d, hid⟩ := by
      simp_rw [he]
    have hnd : n = d := by
      rw [List.get_eq_getElem, List.get_eq_getElem, List.getElem_indexOf hin,
        List.getElem_indexOf hid] at hgeth
      exact hgeth
    rw [hnd] at hlt
    omega
  have hlt2 : l.indexOf n < l.indexOf d := by omega
  have hrel := List.pairwise_iff_getElem.mp hs (l.indexOf n) (l.indexOf d) hin hid hlt2
  rw [List.getElem_indexOf hin, List.getElem_indexOf hid] at hrel
  omega

/-- C2: with unique dependency names, when the alias-resolved dependency
relation is acyclic the sort returns an order that is a permutation of
the value names in which every name comes after its resolved dependency;
when the resolved relation has a cycle the call fails with the
attribute-cycle error message naming the attributes. -/
theorem topological_sort_with_aliases_correct
    (hnd : (deps.map Prod.fst).Nodup) :
    (¬ DepCyclic deps aliases →
      ∃ order, topological_sort_with_aliases deps aliases = .ok order ∧
        order.Perm (deps.map Prod.fst) ∧
        ∀ n d, resolvedDep deps aliases n = some d → n ∈ order → d ∈ order →
          order.indexOf d < order.indexOf n) ∧
    (DepCyclic deps aliases →
      topological_sort_with_aliases deps aliases = .error (cycleErrorMessage deps)) := by
  constructor
  · intro hacyc
    have hall : ((deps.map Prod.fst).all
        (fun k => (chainDepth deps aliases (deps.length + 1) k).isSome)) = true := by
      rw [List.all_eq_true]
      intro k hk
      rcases hcd : chainDepth deps aliases (deps.length + 1) k with _ | w
      · exact absurd (cyclic_of_chainDepth_none deps aliases k hcd) hacyc
      · rfl
    refine ⟨List.insertionSort
        (fun a b => depDepth deps aliases a ≤ depDepth deps aliases b)
        (deps.map Prod.fst), ?_, ?_, ?_⟩
    · rw [topological_sort_with_aliases, if_pos hall]
    · exact List.perm_insertionSort _ _
    · intro n d hdep hn hd
      have hperm := List.perm_insertionSort
        (fun a b => depDepth deps aliases a ≤ depDepth deps aliases b)
        (deps.map Prod.fst)
      have hsorted : List.Sorted
          (fun a b => depDepth deps aliases a ≤ depDepth deps aliases b)
          (List.insertionSort
            (fun a b => depDepth deps aliases a ≤ depDepth deps aliases b)
            (deps.map Prod.fst)) := by
        haveI : IsTotal String
            (fun a b => depDepth deps aliases a ≤ depDepth deps aliases b) :=
          ⟨fun a b => le_total _ _⟩
        haveI : IsTrans String
            (fun a b => depDepth deps aliases a ≤ depDepth deps aliases b) :=
          ⟨fun a b c h1 h2 => le_trans h1 h2⟩
        exact List.sorted_insertionSort _ _
      have hnkeys : n ∈ deps.map Prod.fst := hperm.mem_iff.mp hn
      have hwn : ∃ wn, chainDepth deps aliases (deps.length + 1) n = some wn := by
        have := List.all_eq_true.mp hall n hnkeys
        rcases hcd : chainDepth deps aliases (deps.length + 1) n with _ | w
        · rw [hcd] at this
          cases this
        · exact ⟨w, rfl⟩
      obtain ⟨wn, hwn⟩ := hwn
      have hdn : depDepth deps aliases d < depDepth deps aliases n := by
        rw [chainDepth, hdep] at hwn
        dsimp only [] at hwn
        obtain ⟨wd, hwd, hwdn⟩ := Option.map_eq_some'.mp hwn
        have hwd' : chainDepth deps aliases (deps.length + 1) d = some wd :=
          chainDepth_mono deps aliases deps.length d wd hwd (deps.length + 1) (by omega)
        rw [depDepth, depDepth, hwd']
        rw [show chainDepth deps aliases (deps.length + 1) n = some wn from ?hn2]
        · dsimp only [Option.getD]
          omega
        case hn2 =>
          rw [chainDepth, hdep]
          dsimp only []
          rw [hwd, ← hwdn]
          rfl
      exact sorted_indexOf_lt (depDepth deps aliases) _ hsorted d n hd hn hdn
  · intro hcyc
    obtain ⟨v, c, hv⟩ := hcyc
    have h1 : depIter deps aliases (1 + c) v = some v := by
      rw [Nat.add_comm]
      exact hv
    rw [depIter_add deps aliases 1 c v] at h1
    obtain ⟨m, hm1, _⟩ := Option.bind_eq_some.mp h1
    have hpred : resolvedDep deps aliases v = some m := hm1
    have hkey : v ∈ deps.map Prod.fst := mem_keys_of_resolvedDep deps aliases v m hpred
    have hnone : chainDepth deps aliases (deps.length + 1) v = none :=
      chainDepth_none_of_cycle deps aliases (deps.length + 1) v ⟨c, hv⟩
    have hall : ((deps.map Prod.fst).all
        (fun k => (chainDepth deps aliases (deps.length + 1) k).isSome)) ≠ true := by
      intro hall
      have := List.all_eq_true.mp hall v hkey
      rw [hnone] at this
      cases this
    rw [topological_sort_with_aliases, if_neg (by simpa using hall)]

end TopologicalSort

/-- C2 witness: the correctness statement at a concrete acyclic
dependency map with an alias (`height` depends on `w`, an alias of
`width`). -/
theorem topological_sort_with_aliases_correct_witness :
    ∃ order, topological_sort_with_aliases [("height", some "w"), ("width", none)]
        [("w", "width")] = .ok order ∧
      order.Perm (([("height", some "w"), ("width", none)] :
        List (String × Option String)).map Prod.fst) ∧
      ∀ n d, resolvedDep [("height", some "w"), ("width", none)] [("w", "width")] n =
          some d → n ∈ order → d ∈ order → order.indexOf d < order.indexOf n := by
  have h := topological_sort_with_aliases_correct [("height", some "w"), ("width", none)]
    [("w", "width")] (by decide)
  refine h.1 ?_
  intro hcyc
  have herr := h.2 hcyc
  rw [show topological_sort_with_aliases [("height", some "w"), ("width", none)]
      [("w", "width")] = Except.ok ["width", "height"] from rfl] at herr
  exact Except.noConfusion herr

end Viz3
